import Mathlib

/-!
Shallow embedding of the istoria data pipeline: the Daylio mood-archive
importer (`src/importers/daylio-import.ts`), the Obsidian notes-directory
importer (`src/importers/obsidian-import.ts`) and the NotebookLM period
exporter (`src/exporters/notebooklm-export.ts`), together with the parts of
the Luxon `DateTime` library behaviour those files depend on (fixed-offset
zone parsing, `fromMillis`, `fromISO`, `toFormat`).

Machine numbers are modelled as `Int`/`Nat`; the JavaScript arithmetic used
by the sources stays well inside the exactly-representable double range, and
every place where floating-point rounding could in principle matter is noted
at the definition it concerns.
-/

namespace Istoria

/-! ### Small JavaScript string helpers -/

/-- `String(n).padStart(2, '0')` for a natural number `n`. -/
def pad2 (n : Nat) : String :=
  let s := toString n
  if s.length < 2 then "".pushn '0' (2 - s.length) ++ s else s

/-- Luxon `toFormat "yyyy"` / `padStart(4, '0')`-style four digit padding. -/
def pad4 (n : Nat) : String :=
  let s := toString n
  if s.length < 4 then "".pushn '0' (4 - s.length) ++ s else s

/-- Drop the longest suffix of characters satisfying `p`. -/
def dropTrailing (p : Char → Bool) (l : List Char) : List Char :=
  (l.reverse.dropWhile p).reverse

/-- JavaScript `String.prototype.trim()`: removes leading and trailing
whitespace.  JS trims the Unicode whitespace class; all strings reaching
`trim` in this development only ever carry ASCII whitespace, where
`Char.isWhitespace` agrees with JS. -/
def jsTrim (s : String) : String :=
  String.mk (dropTrailing Char.isWhitespace
    (s.data.dropWhile Char.isWhitespace))

/-- ASCII lowercasing, the only part of `String.prototype.toLowerCase()`
exercised by the zone names built here. -/
def asciiToLower (c : Char) : Char :=
  if 'A' ≤ c ∧ c ≤ 'Z' then Char.ofNat (c.toNat + 32) else c

/-! ### JavaScript `Map` as an insertion-ordered association list

`Map.set` overwrites the value of an existing key in place (keeping its
insertion position) and appends unknown keys at the end; `Map.get` returns
the value of the unique entry with the given key.  Iteration follows list
order, which is insertion order. -/

/-- `map.set(k, v)` on an insertion-ordered association list. -/
def mapSet {κ β : Type} [DecidableEq κ] :
    List (κ × β) → κ → β → List (κ × β)
  | [], k, v => [(k, v)]
  | (k', v') :: rest, k, v =>
    if k' = k then (k, v) :: rest else (k', v') :: mapSet rest k v

/-- `map.get(k)` (`undefined` becomes `none`). -/
def mapGet {κ β : Type} [DecidableEq κ] (l : List (κ × β)) (k : κ) :
    Option β :=
  (l.find? (fun p => p.1 = k)).map (·.2)

/-- The grouping idiom both the importer and the exporter use:
`const existing = m.get(k) ?? []; existing.push(x); m.set(k, existing)`,
folded over a list.  Keys keep first-occurrence order, each key's list keeps
the original relative order of its elements. -/
def pushGroup {α : Type} [DecidableEq κ] :
    List (κ × List α) → κ → α → List (κ × List α)
  | [], k, a => [(k, [a])]
  | (k', xs) :: rest, k, a =>
    if k' = k then (k', xs ++ [a]) :: rest else (k', xs) :: pushGroup rest k a

/-- Group a list by a string key, preserving insertion order (JS `Map`). -/
def groupPush {α κ : Type} [DecidableEq κ] (l : List α) (key : α → κ) :
    List (κ × List α) :=
  l.foldl (fun acc a => pushGroup acc (key a) a) []

/-! ### Stable sort

`Array.prototype.sort` with a consistent numeric comparator is specified to
be stable, and a stable ascending sort is extensionally unique; we realise
it as an insertion sort that inserts each element before the first element
it compares `le` to (hence after every strictly smaller one and before every
equal one that originally followed it). -/

/-- Insert `a` into `l` before the first `b` with `le (key a) (key b)`. -/
def insertByKey {α κ : Type} (le : κ → κ → Bool) (key : α → κ) (a : α) :
    List α → List α
  | [] => [a]
  | b :: l => if le (key a) (key b) then a :: b :: l
              else b :: insertByKey le key a l

/-- Stable ascending sort by `key` under the total preorder `le`; the
extensional behaviour of JS `sort((x, y) => key(x) - key(y))`. -/
def sortByKey {α κ : Type} (le : κ → κ → Bool) (key : α → κ) :
    List α → List α
  | [] => []
  | a :: l => insertByKey le key a (sortByKey le key (l))

theorem insertByKey_perm {α κ : Type} (le : κ → κ → Bool) (key : α → κ)
    (a : α) (l : List α) : (insertByKey le key a l).Perm (a :: l) := by
  induction l with
  | nil => simp [insertByKey]
  | cons b l ih =>
    by_cases h : le (key a) (key b) = true
    · simp [insertByKey, h]
    · simp only [insertByKey, h]
      simp only [Bool.false_eq_true, if_false]
      exact (ih.cons b).trans (List.Perm.swap a b l)

theorem sortByKey_perm {α κ : Type} (le : κ → κ → Bool) (key : α → κ)
    (l : List α) : (sortByKey le key l).Perm l := by
  induction l with
  | nil => simp [sortByKey]
  | cons a l ih =>
    exact (insertByKey_perm le key a _).trans (ih.cons a)

theorem insertByKey_pairwise {α κ : Type} (le : κ → κ → Bool) (key : α → κ)
    (htot : ∀ x y, le x y = true ∨ le y x = true)
    (htrans : ∀ x y z, le x y = true → le y z = true → le x z = true)
    (a : α) (l : List α)
    (hl : l.Pairwise (fun x y => le (key x) (key y) = true)) :
    (insertByKey le key a l).Pairwise
      (fun x y => le (key x) (key y) = true) := by
  induction l with
  | nil => simp [insertByKey]
  | cons b l ih =>
    rcases List.pairwise_cons.mp hl with ⟨hb, hl'⟩
    by_cases h : le (key a) (key b) = true
    · simp only [insertByKey, h, if_true]
      refine List.pairwise_cons.mpr ⟨?_, hl⟩
      intro y hy
      rcases List.mem_cons.mp hy with rfl | hy
      · exact h
      · exact htrans _ _ _ h (hb y hy)
    · simp only [insertByKey, h]
      simp only [Bool.false_eq_true, if_false]
      refine List.pairwise_cons.mpr ⟨?_, ih hl'⟩
      intro y hy
      have hperm := insertByKey_perm le key a l
      have hy' : y ∈ a :: l := hperm.mem_iff.mp hy
      rcases List.mem_cons.mp hy' with rfl | hy''
      · rcases htot (key y) (key b) with h' | h'
        · exact absurd h' h
        · exact h'
      · exact hb y hy''

theorem sortByKey_pairwise {α κ : Type} (le : κ → κ → Bool) (key : α → κ)
    (htot : ∀ x y, le x y = true ∨ le y x = true)
    (htrans : ∀ x y z, le x y = true → le y z = true → le x z = true)
    (l : List α) :
    (sortByKey le key l).Pairwise
      (fun x y => le (key x) (key y) = true) := by
  induction l with
  | nil => simp [sortByKey]
  | cons a l ih => exact insertByKey_pairwise le key htot htrans a _ ih

theorem insertByKey_filter_of_eq {α κ : Type} [DecidableEq κ]
    (le : κ → κ → Bool) (key : α → κ)
    (hrefl : ∀ x, le x x = true)
    (a : α) (l : List α) (k : κ) (hka : key a = k) :
    (insertByKey le key a l).filter (fun x => key x = k) =
      a :: l.filter (fun x => key x = k) := by
  subst hka
  induction l with
  | nil => simp [insertByKey, List.filter]
  | cons b l ih =>
    by_cases h : le (key a) (key b) = true
    · simp [insertByKey, h, List.filter]
    · have hbk : ¬ (key b = key a) := by
        intro hbk
        exact h (hbk ▸ hrefl (key b))
      simp only [insertByKey, h]
      simp only [Bool.false_eq_true, if_false]
      simp [List.filter, hbk, ih]

theorem insertByKey_filter_of_ne {α κ : Type} [DecidableEq κ]
    (le : κ → κ → Bool) (key : α → κ)
    (a : α) (l : List α) (k : κ) (hka : ¬ (key a = k)) :
    (insertByKey le key a l).filter (fun x => key x = k) =
      l.filter (fun x => key x = k) := by
  induction l with
  | nil => simp [insertByKey, List.filter, hka]
  | cons b l ih =>
    by_cases h : le (key a) (key b) = true
    · simp [insertByKey, h, List.filter, hka]
    · simp only [insertByKey, h]
      simp only [Bool.false_eq_true, if_false]
      by_cases hbk : key b = k <;> simp [List.filter, hbk, ih]

/-- Stability of `sortByKey`: the elements with any fixed key value appear in
the sorted result exactly in their original relative order. -/
theorem sortByKey_filter {α κ : Type} [DecidableEq κ]
    (le : κ → κ → Bool) (key : α → κ)
    (hrefl : ∀ x, le x x = true)
    (l : List α) (k : κ) :
    (sortByKey le key l).filter (fun x => key x = k) =
      l.filter (fun x => key x = k) := by
  induction l with
  | nil => simp [sortByKey]
  | cons a l ih =>
    by_cases hka : key a = k
    · rw [sortByKey, insertByKey_filter_of_eq le key hrefl a _ k hka, ih]
      simp [List.filter, hka]
    · rw [sortByKey, insertByKey_filter_of_ne le key a _ k hka, ih]
      simp [List.filter, hka]

/-! ### Luxon `DateTime`

A Luxon `DateTime` is an instant (epoch milliseconds) together with a zone;
every zone this code base ever attaches is a fixed offset (either a parsed
`UTC±n` specifier, an explicit ISO offset, or the system zone, which we model
as a fixed offset because none of the claims span a DST transition).
Constructing a `DateTime` with an unrecognised zone yields the invalid
`DateTime` (`isValid === false`, `toMillis() === NaN`,
`toFormat(..) === "Invalid DateTime"`). -/

inductive LDateTime where
  | valid (millis : Int) (offsetMin : Int)
  | invalid
deriving DecidableEq, Repr

def LDateTime.isValid : LDateTime → Bool
  | .valid _ _ => true
  | .invalid => false

/-- `toMillis()` as a sort key.  On an invalid `DateTime`, `toMillis()` is
`NaN` and a JS comparator returning `NaN` leaves the sort order
implementation-defined; the claims only quantify over valid instants, and we
map the invalid case to `0` so the key stays total. -/
def LDateTime.millisKey : LDateTime → Int
  | .valid ms _ => ms
  | .invalid => 0

/-- `Math.round(x / 60000)` for an integer number of milliseconds `x`:
round-half-up (`Math.round` sends ties toward `+∞`).  For every offset with
`|x| < 2^52` the double quotient is exact enough that this integer formula
agrees with the floating-point computation (half-integer quotients are
exactly representable). -/
def roundDiv60000 (x : Int) : Int := (x + 30000) / 60000

/-- Digits of the fractional part of `m / 60` as JavaScript renders them,
for a non-multiple `m` of 60 (`r = |m| % 60 ≠ 0`).  Exact for quarter-hour
remainders (15, 30, 45, which are exactly representable doubles); for other
remainders JS prints a longer expansion, but only the presence of a decimal
point is ever relevant downstream (it makes the zone specifier unparsable),
and any non-multiple of 60 renders with a decimal point. -/
def fracDigits (r : Nat) : String :=
  String.mk (dropTrailing (· = '0') (Nat.toDigits 10 (r * 10000 / 60)))

/-- JavaScript rendering `String(m / 60)` of the IEEE quotient of the
integer `m` by 60: an integer rendering iff `60 ∣ m`, otherwise an integer
part followed by a decimal point and fraction digits. -/
def jsDiv60String (m : Int) : String :=
  if m % 60 = 0 then toString (m / 60)
  else
    (if m < 0 then "-" else "") ++ toString (m.natAbs / 60) ++ "." ++
      fracDigits (m.natAbs % 60)

/-- The zone name the Daylio importer builds:
```UTC${offsetMinutes >= 0 ? '+' : ''}${offsetMinutes / 60}` ``. -/
def zoneSpecifier (offsetMinutes : Int) : String :=
  "UTC" ++ (if 0 ≤ offsetMinutes then "+" else "") ++ jsDiv60String offsetMinutes

/-- One decimal digit. -/
def digitVal? (c : Char) : Option Nat :=
  if '0' ≤ c ∧ c ≤ '9' then some (c.toNat - '0'.toNat) else none

/-- Luxon `FixedOffsetZone.parseSpecifier`, the regular expression
`^utc(?:([+-]\d{1,2})(?::(\d{2}))?)?$` (case-insensitive; Luxon lowercases
the zone name first), returning the offset in minutes.  `signedOffset` gives
the minutes component the sign of the hours component. -/
def parseSpecifier (s : String) : Option Int :=
  match s.data.map asciiToLower with
  | ['u', 't', 'c'] => some 0
  | 'u' :: 't' :: 'c' :: sign :: rest =>
    if sign = '+' ∨ sign = '-' then
      let sgn : Int := if sign = '+' then 1 else -1
      match rest with
      | [d1] => (digitVal? d1).map (fun h => sgn * (h * 60))
      | [d1, d2] =>
        match digitVal? d1, digitVal? d2 with
        | some h1, some h2 => some (sgn * ((h1 * 10 + h2) * 60))
        | _, _ => none
      | [d1, ':', m1, m2] =>
        match digitVal? d1, digitVal? m1, digitVal? m2 with
        | some h, some mh, some ml => some (sgn * (h * 60 + (mh * 10 + ml)))
        | _, _, _ => none
      | [d1, d2, ':', m1, m2] =>
        match digitVal? d1, digitVal? d2, digitVal? m1, digitVal? m2 with
        | some h1, some h2, some mh, some ml =>
          some (sgn * ((h1 * 10 + h2) * 60 + (mh * 10 + ml)))
        | _, _, _, _ => none
      | _ => none
    else none
  | _ => none

/-- Luxon `DateTime.fromMillis(ms, { zone })` for the zone strings the
Daylio importer builds.  `normalizeZone` tries `FixedOffsetZone.parseSpecifier`
and then falls back to `IANAZone.create`; no string of the shape
`UTC<number>` that the specifier regex rejects (a decimal point, or three or
more hour digits) names an IANA zone, so the fallback yields an invalid zone
and `fromMillis` an invalid `DateTime`. -/
def luxonFromMillisZoned (ms : Int) (zone : String) : LDateTime :=
  match parseSpecifier zone with
  | some off => .valid ms off
  | none => .invalid

/-! ### Proleptic Gregorian calendar arithmetic (civil-from-days and back),
as performed by Luxon's `toFormat`/`fromISO` on fixed-offset zones. -/

/-- Days since 1970-01-01 of the civil date `y-m-d` (proleptic Gregorian). -/
def daysFromCivil (y : Int) (m d : Nat) : Int :=
  let y' := if m ≤ 2 then y - 1 else y
  let era := y' / 400
  let yoe := (y' - era * 400).toNat
  let mp := if 3 ≤ m then m - 3 else m + 9
  let doy := (153 * mp + 2) / 5 + d - 1
  let doe := yoe * 365 + yoe / 4 - yoe / 100 + doy
  era * 146097 + (doe : Int) - 719468

/-- Civil date `(y, m, d)` of the day `z` counted from 1970-01-01. -/
def civilFromDays (z0 : Int) : Int × Nat × Nat :=
  let z := z0 + 719468
  let era := z / 146097
  let doe := (z - era * 146097).toNat
  let yoe := (doe - doe / 1460 + doe / 36524 - doe / 146096) / 365
  let y := era * 400 + (yoe : Int)
  let doy := doe - (365 * yoe + yoe / 4 - yoe / 100)
  let mp := (5 * doy + 2) / 153
  let d := doy - (153 * mp + 2) / 5 + 1
  let m := if mp < 10 then mp + 3 else mp - 9
  (if m ≤ 2 then y + 1 else y, m, d)

/-- Luxon `toFormat("HH:mm")`: the local wall-clock time of the instant in
the `DateTime`'s zone, 24-hour, zero-padded. -/
def timeHHMM : LDateTime → String
  | .invalid => "Invalid DateTime"
  | .valid ms off =>
    let localMin := (ms + off * 60000) / 60000
    let minOfDay := (localMin % 1440).toNat
    pad2 (minOfDay / 60) ++ ":" ++ pad2 (minOfDay % 60)

/-- Luxon `toFormat("yyyy-MM-dd")` in the `DateTime`'s zone (the exporter's
`getDayKey`). -/
def getDayKey : LDateTime → String
  | .invalid => "Invalid DateTime"
  | .valid ms off =>
    let localDay := (ms + off * 60000) / 86400000
    let (y, m, d) := civilFromDays localDay
    pad4 y.toNat ++ "-" ++ pad2 m ++ "-" ++ pad2 d

/-! ### The Daylio mood-archive importer (`src/importers/daylio-import.ts`)

The file-system and ZIP/base64 stages (`extractDaylioBackup`,
`parseDaylioJson`) are I/O plumbing producing a `DaylioBackup`; the claims
concern the pipeline from the parsed backup onward, embedded here as a pure
function of the backup. -/

structure DaylioMood where
  id : Int
  custom_name : String
  predefined_name_id : Int
deriving DecidableEq, Repr

structure DaylioTag where
  id : Int
  name : String
deriving DecidableEq, Repr

structure DaylioEntry where
  id : Int
  day : Nat
  month : Nat -- 0-indexed in Daylio
  year : Nat
  hour : Nat
  minute : Nat
  datetime : Int -- ms timestamp
  timeZoneOffset : Int -- ms offset
  mood : Int -- references customMoods.id
  note : String
  tags : List Int -- references tags[].id
deriving DecidableEq, Repr

structure DaylioBackup where
  customMoods : List DaylioMood
  tags : List DaylioTag
  dayEntries : List DaylioEntry
deriving DecidableEq, Repr

/-- The canonical record an importer produces (`NewMemory` in
`src/types.ts`); `metadata` is an open string-to-string mapping. -/
structure NewMemory where
  source : String
  memoryCreatedAt : LDateTime
  title : String
  metadata : List (String × String)
  content : String
deriving DecidableEq, Repr

/-- `PREDEFINED_MOOD_NAMES`: predefined mood names by `predefined_name_id`. -/
def PREDEFINED_MOOD_NAMES : Int → Option String
  | 1 => some "Rad"
  | 2 => some "Good"
  | 3 => some "Meh"
  | 4 => some "Bad"
  | 5 => some "Awful"
  | _ => none

/-- `getMoodName`: prefers a truthy, non-blank `custom_name`
(JS: `mood.custom_name && mood.custom_name.trim()`), otherwise the
predefined name, with `"Unknown"` for unknown mood ids or unknown
predefined references. -/
def getMoodName (moodId : Int) (moodLookup : List (Int × DaylioMood)) :
    String :=
  match mapGet moodLookup moodId with
  | none => "Unknown"
  | some mood =>
    if mood.custom_name ≠ "" ∧ jsTrim mood.custom_name ≠ "" then
      mood.custom_name
    else
      (PREDEFINED_MOOD_NAMES mood.predefined_name_id).getD "Unknown"

/-- `formatEntry`: one line `<mood>: <note>` plus a parenthesised
comma-separated list of the tag names that resolve (in original reference
order, unresolvable references dropped by `filter`), the whole line passed
through `String.prototype.trim()`. -/
def formatEntry (entry : DaylioEntry) (moodLookup : List (Int × DaylioMood))
    (tagLookup : List (Int × String)) : String :=
  let moodName := getMoodName entry.mood moodLookup
  let tagNames := entry.tags.filterMap (fun tagId => mapGet tagLookup tagId)
  let line := moodName ++ ": " ++ entry.note
  let line := if tagNames.length > 0 then
      line ++ " (" ++ String.intercalate ", " tagNames ++ ")"
    else line
  jsTrim line

/-- The mood lookup table: `for (mood of customMoods) moodLookup.set(mood.id, mood)`. -/
def mkMoodLookup (moods : List DaylioMood) : List (Int × DaylioMood) :=
  moods.foldl (fun acc mood => mapSet acc mood.id mood) []

/-- The tag lookup table: `for (tag of tags) tagLookup.set(tag.id, tag.name)`. -/
def mkTagLookup (tags : List DaylioTag) : List (Int × String) :=
  tags.foldl (fun acc tag => mapSet acc tag.id tag.name) []

/-- The grouping key
`` `${entry.year}-${String(entry.month + 1).padStart(2, '0')}-${String(entry.day).padStart(2, '0')}` ``. -/
def entryDayKey (entry : DaylioEntry) : String :=
  toString entry.year ++ "-" ++ pad2 (entry.month + 1) ++ "-" ++ pad2 entry.day

/-- Sort key for entries within a day: `hour * 60 + minute`. -/
def entryTimeKey (entry : DaylioEntry) : Nat := entry.hour * 60 + entry.minute

/-- `entries.sort((a, b) => timeA - timeB)`: stable ascending by
`hour * 60 + minute`. -/
def sortEntriesByTime (entries : List DaylioEntry) : List DaylioEntry :=
  sortByKey Nat.ble entryTimeKey entries

/-- The `memoryCreatedAt` the importer constructs for a day group:
`DateTime.fromMillis(firstEntry.datetime, { zone: UTC±(offsetMinutes / 60) })`
with `offsetMinutes = Math.round(firstEntry.timeZoneOffset / 60000)`. -/
def entryCreatedAt (entry : DaylioEntry) : LDateTime :=
  luxonFromMillisZoned entry.datetime
    (zoneSpecifier (roundDiv60000 entry.timeZoneOffset))

/-- The loop body for one day group: sort the group, format each entry to a
line, join with newlines, and build the record from the earliest (post-sort)
entry; an empty group is skipped (`continue`). -/
def mkDayMemory (moodLookup : List (Int × DaylioMood))
    (tagLookup : List (Int × String)) (dayKey : String)
    (entries : List DaylioEntry) : Option NewMemory :=
  match sortEntriesByTime entries with
  | [] => none
  | firstEntry :: rest =>
    some
      { source := "daylio"
        memoryCreatedAt := entryCreatedAt firstEntry
        title := "Daylio: " ++ dayKey
        metadata :=
          [("entryCount", toString entries.length), ("dayKey", dayKey)]
        content := String.intercalate "\n" ((firstEntry :: rest).map
          (fun entry => formatEntry entry moodLookup tagLookup)) }

/-- `importDaylioBackup` from the parsed backup onward: build the lookup
tables, group the entries by day key, build one record per day group, and
sort the records ascending by `memoryCreatedAt.toMillis()` (stable; the
comparator is `dateA.toMillis() - dateB.toMillis()`). -/
def importDaylioBackup (backup : DaylioBackup) : List NewMemory :=
  let moodLookup := mkMoodLookup backup.customMoods
  let tagLookup := mkTagLookup backup.tags
  let entriesByDay := groupPush backup.dayEntries entryDayKey
  let memories := entriesByDay.filterMap
    (fun g => mkDayMemory moodLookup tagLookup g.1 g.2)
  sortByKey (fun a b => decide (a ≤ b))
    (fun m => m.memoryCreatedAt.millisKey) memories

/-! ### The Obsidian notes-directory importer (`src/importers/obsidian-import.ts`)

Directory traversal and file reading are I/O; the claims concern how
`memoryCreatedAt` is derived from a file's name and its modification time,
embedded here per file.  The system zone is modelled as a fixed offset
`localOff` in minutes (no claim spans a DST transition). -/

/-- `basename(filename, '.md')`: strip a trailing `.md` if present. -/
def stripMdSuffix (s : String) : String :=
  String.mk (match s.data.reverse with
    | 'd' :: 'm' :: '.' :: rest => rest.reverse
    | _ => s.data)

/-- Parse exactly `n` decimal digits from the front. -/
def digitsN? : Nat → List Char → Option (Nat × List Char)
  | 0, l => some (0, l)
  | _ + 1, [] => none
  | n + 1, c :: l =>
    match digitVal? c with
    | none => none
    | some d =>
      (digitsN? n l).map (fun p => (d * 10 ^ n + p.1, p.2))

/-- Consume an optional literal character (the regex `c?`, which is
deterministic here because the token after it can never match `c`). -/
def skipOpt (c : Char) : List Char → List Char
  | d :: l => if d = c then l else d :: l
  | [] => []

/-- The components matched by `ISO_DATETIME_REGEX`
`^(\d{4}-?\d{2}-?\d{2}T\d{2}:?\d{2}:?\d{2}(?:\.\d+)?(?:Z|[+-]\d{2}:?\d{2})?)`. -/
structure IsoParts where
  y : Nat
  mo : Nat
  d : Nat
  h : Nat
  mi : Nat
  s : Nat
  frac : List Char
  offset : Option Int -- minutes; `none` when the string carries no offset
deriving DecidableEq, Repr

/-- The optional offset tail `(?:Z|[+-]\d{2}:?\d{2})?`; returns `none` when
the group matches empty (any leftover characters are simply not part of the
match, the regex being unanchored at the end). -/
def parseIsoOffset (l : List Char) : Option Int :=
  match l with
  | 'Z' :: _ => some 0
  | sign :: rest =>
    if sign = '+' ∨ sign = '-' then
      match digitsN? 2 rest with
      | some (hh, rest2) =>
        match digitsN? 2 (skipOpt ':' rest2) with
        | some (mm, _) =>
          some ((if sign = '+' then 1 else -1) * (hh * 60 + mm))
        | none => none
      | none => none
    else none
  | [] => none

/-- The optional fraction `(?:\.\d+)?` (greedy), returning the digit list
and the remainder. -/
def parseIsoFrac (l : List Char) : List Char × List Char :=
  match l with
  | '.' :: rest =>
    let digits := rest.takeWhile (fun c => (digitVal? c).isSome)
    if digits.isEmpty then ([], l) else (digits, rest.drop digits.length)
  | _ => ([], l)

/-- Match `ISO_DATETIME_REGEX` against the start of the character list. -/
def parseIsoPrefix (l : List Char) : Option IsoParts := do
  let (y, l) ← digitsN? 4 l
  let (mo, l) ← digitsN? 2 (skipOpt '-' l)
  let (d, l) ← digitsN? 2 (skipOpt '-' l)
  match l with
  | 'T' :: l => do
    let (h, l) ← digitsN? 2 l
    let (mi, l) ← digitsN? 2 (skipOpt ':' l)
    let (s, l) ← digitsN? 2 (skipOpt ':' l)
    let (frac, l) := parseIsoFrac l
    pure ⟨y, mo, d, h, mi, s, frac, parseIsoOffset l⟩
  | _ => none

/-- Match `YYYY_MM_DD_REGEX` `^(\d{4}-\d{2}-\d{2})` (dashes mandatory). -/
def parseYmdPrefix (l : List Char) : Option (Nat × Nat × Nat) := do
  let (y, l) ← digitsN? 4 l
  match l with
  | '-' :: l => do
    let (mo, l) ← digitsN? 2 l
    match l with
    | '-' :: l => do
      let (d, _) ← digitsN? 2 l
      pure (y, mo, d)
    | _ => none
  | _ => none

def isLeapYear (y : Nat) : Bool :=
  (y % 4 = 0 ∧ y % 100 ≠ 0) ∨ y % 400 = 0

def daysInMonth (y : Nat) (m : Nat) : Nat :=
  match m with
  | 1 => 31 | 2 => if isLeapYear y then 29 else 28 | 3 => 31
  | 4 => 30 | 5 => 31 | 6 => 30 | 7 => 31 | 8 => 31
  | 9 => 30 | 10 => 31 | 11 => 30 | 12 => 31
  | _ => 0

/-- Luxon's calendar validity conditions for a parsed date-time. -/
def isoPartsValid (p : IsoParts) : Bool :=
  1 ≤ p.mo ∧ p.mo ≤ 12 ∧ 1 ≤ p.d ∧ p.d ≤ daysInMonth p.y p.mo ∧
    p.h ≤ 23 ∧ p.mi ≤ 59 ∧ p.s ≤ 59

/-- Luxon `parseMillis`: `Math.floor(parseFloat("0." + frac) * 1000)`, the
first three fraction digits right-padded with zeros.  (For a handful of
digit patterns the double multiplication can be off by one ulp; no claim
depends on fraction digits.) -/
def fracMillis (frac : List Char) : Nat :=
  match (frac ++ ['0', '0', '0']).take 3 with
  | [a, b, c] =>
    ((digitVal? a).getD 0) * 100 + ((digitVal? b).getD 0) * 10 +
      ((digitVal? c).getD 0)
  | _ => 0

/-- The parsed fields read as a UTC wall-clock time, in epoch milliseconds. -/
def isoFieldsAsUtcMillis (p : IsoParts) : Int :=
  daysFromCivil (p.y) p.mo p.d * 86400000 + p.h * 3600000 + p.mi * 60000 +
    p.s * 1000 + fracMillis p.frac

/-- Luxon `DateTime.fromISO(text)` with default options, system zone a fixed
offset `localOff` (minutes).  Per the Luxon documentation the `zone` option
"defaults to 'local'" and is what the result is expressed in; an explicit
offset in the text is used to fix the instant but is only kept as the
result's zone under `setZone: true`, which this code base never passes.  So
the resulting `DateTime` always carries the system zone. -/
def luxonFromISO (localOff : Int) (p : IsoParts) : LDateTime :=
  if isoPartsValid p then
    match p.offset with
    | some off => .valid (isoFieldsAsUtcMillis p - off * 60000) localOff
    | none => .valid (isoFieldsAsUtcMillis p - localOff * 60000) localOff
  else .invalid

/-- Luxon `DateTime.fromISO` on a bare `YYYY-MM-DD`: midnight in the system
zone. -/
def luxonFromISOdate (localOff : Int) (y mo d : Nat) : LDateTime :=
  if 1 ≤ mo ∧ mo ≤ 12 ∧ 1 ≤ d ∧ d ≤ daysInMonth y mo then
    .valid (daysFromCivil (y) mo d * 86400000 - localOff * 60000) localOff
  else .invalid

/-- `extractDateFromFilename`: try the ISO pattern first, then the bare
date pattern; each attempt falls through when its captured text does not
parse to a valid `DateTime`. -/
def extractDateFromFilename (localOff : Int) (filename : String) :
    Option LDateTime :=
  let name := stripMdSuffix filename
  let ymd : Option LDateTime :=
    match parseYmdPrefix name.data with
    | some (y, mo, d) =>
      match luxonFromISOdate localOff y mo d with
      | .valid ms off => some (.valid ms off)
      | .invalid => none
    | none => none
  match parseIsoPrefix name.data with
  | some p =>
    match luxonFromISO localOff p with
    | .valid ms off => some (.valid ms off)
    | .invalid => ymd
  | none => ymd

/-- The `memoryCreatedAt` of one imported note: the filename date when one
is found, otherwise the file's mtime (`DateTime.fromJSDate` keeps the
instant and attaches the system zone). -/
def obsidianMemoryCreatedAt (localOff : Int) (filename : String)
    (mtimeMillis : Int) : LDateTime :=
  match extractDateFromFilename localOff filename with
  | some dt => dt
  | none => .valid mtimeMillis localOff

/-! ### The NotebookLM exporter (`src/exporters/notebooklm-export.ts`)

`exportToNotebookLM` fetches all memories (the store returns them ordered
ascending by `memoryCreatedAt`), groups them by day, groups the days by
file, and writes one file per file key.  We embed it as a pure function
from the fetched memory list to the list of `(file name, file content)`
pairs written, in write order. -/

/-- A stored record as the exporter reads it back (`Memory` in
`src/types.ts`); `content` is optional. -/
structure Memory where
  id : String
  source : String
  createdAt : String
  memoryCreatedAt : LDateTime
  title : String
  metadata : List (String × String)
  content : Option String
deriving DecidableEq, Repr

inductive ExportInterval where
  | month
  | year
deriving DecidableEq, Repr

/-- `serializeMemory`: `## <title>`, `Time: HH:mm`, and the content when it
is truthy (present and non-empty), joined with newlines. -/
def serializeMemory (memory : Memory) : String :=
  let time := timeHHMM memory.memoryCreatedAt
  let lines := ["## " ++ memory.title, "Time: " ++ time]
  let lines := match memory.content with
    | some c => if c ≠ "" then lines ++ [c] else lines
    | none => lines
  String.intercalate "\n" lines

/-- `formatDay`: the day's serialized memories joined by a `---` rule
surrounded by blank lines, wrapped in `<date>` markers. -/
def formatDay (dateStr : String) (memories : List Memory) : String :=
  "<date>" ++ dateStr ++ "</date>\n" ++
    String.intercalate "\n\n---\n\n" (memories.map serializeMemory) ++ "\n"

/-- English month names, Luxon format token `MMMM` (locale en-US). -/
def monthName (m : Nat) : String :=
  match m with
  | 1 => "January" | 2 => "February" | 3 => "March" | 4 => "April"
  | 5 => "May" | 6 => "June" | 7 => "July" | 8 => "August"
  | 9 => "September" | 10 => "October" | 11 => "November" | 12 => "December"
  | _ => ""

/-- Strict `yyyy-MM-dd` with calendar validity, the shape every day key
produced by `getDayKey` on a valid `DateTime` has; this is what
`DateTime.fromISO(dayKey)` extracts year and month from. -/
def parseDayKeyDate (s : String) : Option (Nat × Nat × Nat) :=
  match s.data with
  | [y1, y2, y3, y4, '-', m1, m2, '-', d1, d2] =>
    match digitVal? y1, digitVal? y2, digitVal? y3, digitVal? y4,
        digitVal? m1, digitVal? m2, digitVal? d1, digitVal? d2 with
    | some a, some b, some c, some d, some e, some f, some g, some h =>
      let y := a * 1000 + b * 100 + c * 10 + d
      let mo := e * 10 + f
      let dy := g * 10 + h
      if 1 ≤ mo ∧ mo ≤ 12 ∧ 1 ≤ dy ∧ dy ≤ daysInMonth y mo then
        some (y, mo, dy)
      else none
    | _, _, _, _, _, _, _, _ => none
  | _ => none

/-- `getFileKey(DateTime.fromISO(dayKey), interval)`: `toFormat('yyyy')`
for the year interval; `toFormat('MMMM yyyy').replace(' ', '')` for the
month interval (month names carry no space, so removing the first space
concatenates name and year directly).  A malformed day key would make
`fromISO` invalid and `toFormat` return the fixed invalid placeholder. -/
def getFileKey (dayKey : String) (interval : ExportInterval) : String :=
  match parseDayKeyDate dayKey with
  | some (y, mo, _) =>
    match interval with
    | .year => pad4 y
    | .month => monthName mo ++ pad4 y
  | none => "Invalid DateTime"

/-- Boolean lexicographic order on `List Nat`. -/
def lexLe : List Nat → List Nat → Bool
  | [], _ => true
  | _ :: _, [] => false
  | a :: as, b :: bs =>
    if a < b then true else if b < a then false else lexLe as bs

/-- Sort key for day entries: the day-key string as a list of code points.
`a.localeCompare(b)` agrees with code-point order on the ASCII
digit-and-hyphen day keys compared here. -/
def dayKeyCodes (p : String × List Memory) : List Nat :=
  p.1.data.map Char.toNat

/-- `exportToNotebookLM` from the fetched list onward: day grouping, file
grouping, per-file day sort (`[...days.entries()].sort(([a], [b]) =>
a.localeCompare(b))`), day formatting, and one `<fileKey>.txt` write per
file key, joined with a blank line between day blocks. -/
def exportToNotebookLM (memories : List Memory) (interval : ExportInterval) :
    List (String × String) :=
  if memories.isEmpty then [] else
  let memoriesByDay := groupPush memories (fun m => getDayKey m.memoryCreatedAt)
  let daysByFile := groupPush memoriesByDay (fun g => getFileKey g.1 interval)
  daysByFile.map (fun g =>
    let sortedDays := sortByKey lexLe dayKeyCodes g.2
    (g.1 ++ ".txt",
      String.intercalate "\n" (sortedDays.map (fun p => formatDay p.1 p.2))))

/-! ### Helper lemmas -/

theorem natBle_refl (x : Nat) : Nat.ble x x = true := by
  simp [Nat.ble_eq]

theorem natBle_total (x y : Nat) : Nat.ble x y = true ∨ Nat.ble y x = true := by
  simp only [Nat.ble_eq]
  omega

theorem natBle_trans (x y z : Nat) :
    Nat.ble x y = true → Nat.ble y z = true → Nat.ble x z = true := by
  simp only [Nat.ble_eq]
  omega

theorem intLeB_refl (x : Int) : decide (x ≤ x) = true := by simp

theorem intLeB_total (x y : Int) :
    decide (x ≤ y) = true ∨ decide (y ≤ x) = true := by
  simp only [decide_eq_true_eq]
  omega

theorem intLeB_trans (x y z : Int) :
    decide (x ≤ y) = true → decide (y ≤ z) = true →
      decide (x ≤ z) = true := by
  simp only [decide_eq_true_eq]
  omega

theorem lexLe_refl (l : List Nat) : lexLe l l = true := by
  induction l with
  | nil => rfl
  | cons a l ih => simp [lexLe, ih]

theorem lexLe_total (l₁ l₂ : List Nat) :
    lexLe l₁ l₂ = true ∨ lexLe l₂ l₁ = true := by
  induction l₁ generalizing l₂ with
  | nil => left; rfl
  | cons a as ih =>
    cases l₂ with
    | nil => right; rfl
    | cons b bs =>
      rcases Nat.lt_trichotomy a b with h | h | h
      · left; simp [lexLe, h]
      · subst h
        rcases ih bs with h' | h' <;> simp [lexLe, Nat.lt_irrefl, h']
      · right; simp [lexLe, h]

theorem lexLe_trans (l₁ l₂ l₃ : List Nat) :
    lexLe l₁ l₂ = true → lexLe l₂ l₃ = true → lexLe l₁ l₃ = true := by
  induction l₁ generalizing l₂ l₃ with
  | nil => intro _ _; rfl
  | cons a as ih =>
    cases l₂ with
    | nil => intro h; exact absurd h (by simp [lexLe])
    | cons b bs =>
      cases l₃ with
      | nil => intro _ h; exact absurd h (by simp [lexLe])
      | cons c cs =>
        intro h12 h23
        simp only [lexLe] at h12 h23 ⊢
        by_cases hba : b < a
        · have hab : ¬ a < b := by omega
          simp [hab, hba] at h12
        · by_cases hcb : c < b
          · have hbc : ¬ b < c := by omega
            simp [hbc, hcb] at h23
          · by_cases hac : a < c
            · simp [hac]
            · have hab : ¬ a < b := by omega
              have hbc : ¬ b < c := by omega
              have hca : ¬ c < a := by omega
              have hab' : a = b := by omega
              have hbc' : b = c := by omega
              subst hab'
              subst hbc'
              simp only [if_neg hac, if_neg hca]
              simp [if_neg hab] at h12 h23
              exact ih bs cs h12 h23

theorem mapGet_of_mem_nodupKeys {κ β : Type} [DecidableEq κ]
    {l : List (κ × β)} (hnd : (l.map Prod.fst).Nodup)
    {k : κ} {v : β} (hmem : (k, v) ∈ l) : mapGet l k = some v := by
  induction l with
  | nil => cases hmem
  | cons p l ih =>
    rcases List.mem_cons.mp hmem with rfl | hmem'
    · simp [mapGet, List.find?]
    · have hk : p.1 ≠ k := by
        intro hk
        have : k ∈ l.map Prod.fst :=
          List.mem_map.mpr ⟨(k, v), hmem', rfl⟩
        rw [List.map_cons, List.nodup_cons] at hnd
        exact hnd.1 (hk ▸ this)
      have := ih (by rw [List.map_cons, List.nodup_cons] at hnd; exact hnd.2)
        hmem'
      simpa [mapGet, List.find?, hk] using this

theorem pushGroup_get_same {α κ : Type} [DecidableEq κ]
    (acc : List (κ × List α)) (k : κ) (a : α) :
    mapGet (pushGroup acc k a) k = some ((mapGet acc k).getD [] ++ [a]) := by
  induction acc with
  | nil => simp [pushGroup, mapGet, List.find?]
  | cons p acc ih =>
    by_cases h : p.1 = k
    · simp [pushGroup, h, mapGet, List.find?]
    · simp only [pushGroup]
      cases p with
      | mk k' xs =>
        simp only at h
        simp [if_neg h, mapGet, List.find?, h] at ih ⊢
        exact ih

theorem pushGroup_get_other {α κ : Type} [DecidableEq κ]
    (acc : List (κ × List α)) (k k' : κ) (a : α) (h : k' ≠ k) :
    mapGet (pushGroup acc k a) k' = mapGet acc k' := by
  induction acc with
  | nil => simp [pushGroup, mapGet, List.find?, h, Ne.symm h]
  | cons p acc ih =>
    by_cases hp : p.1 = k
    · cases p with
      | mk kp xs =>
        simp only at hp
        subst hp
        simp [pushGroup, mapGet, List.find?, Ne.symm h, h]
    · cases p with
      | mk kp xs =>
        simp only at hp
        by_cases hpk : kp = k'
        · subst hpk
          simp [pushGroup, hp, mapGet, List.find?]
        · simp [pushGroup, hp, mapGet, List.find?, hpk] at ih ⊢
          exact ih

theorem groupPush_get_aux {α κ : Type} [DecidableEq κ] (key : α → κ)
    (l : List α) (k : κ) :
    ∀ acc, mapGet (l.foldl (fun acc a => pushGroup acc (key a) a) acc) k =
      (if (l.filter (fun a => key a = k)).isEmpty then mapGet acc k
       else some ((mapGet acc k).getD [] ++
         l.filter (fun a => key a = k))) := by
  induction l with
  | nil => intro acc; simp
  | cons a l ih =>
    intro acc
    by_cases h : key a = k
    · have hacc : mapGet (pushGroup acc (key a) a) k =
          some ((mapGet acc k).getD [] ++ [a]) := by
        rw [h]; exact pushGroup_get_same acc k a
      rw [List.foldl_cons, ih (pushGroup acc (key a) a), hacc]
      by_cases hl : (l.filter (fun a => key a = k)).isEmpty
      · rw [List.isEmpty_iff] at hl
        simp [List.filter_cons, h, hl]
      · have hl' : l.filter (fun a => key a = k) ≠ [] := by
          intro heq
          rw [Bool.not_eq_true] at hl
          rw [heq] at hl
          simp at hl
        simp [List.filter_cons, h, hl']
    · have hacc : mapGet (pushGroup acc (key a) a) k = mapGet acc k :=
        pushGroup_get_other acc (key a) k a (fun hk => h hk.symm)
      rw [List.foldl_cons, ih (pushGroup acc (key a) a), hacc]
      simp [List.filter_cons, h]

/-- `groupPush` groups exactly: the list stored under key `k` consists of
the elements with key `k`, in their original relative order. -/
theorem groupPush_get {α κ : Type} [DecidableEq κ] (key : α → κ)
    (l : List α) (k : κ) :
    mapGet (groupPush l key) k =
      (if (l.filter (fun a => key a = k)).isEmpty then none
       else some (l.filter (fun a => key a = k))) := by
  have := groupPush_get_aux key l k []
  simpa [groupPush, mapGet, List.find?] using this

theorem pushGroup_keys {α κ : Type} [DecidableEq κ]
    (acc : List (κ × List α)) (k : κ) (a : α) :
    (pushGroup acc k a).map Prod.fst =
      (if k ∈ acc.map Prod.fst then acc.map Prod.fst
       else acc.map Prod.fst ++ [k]) := by
  induction acc with
  | nil => simp [pushGroup]
  | cons p acc ih =>
    by_cases h : p.1 = k
    · simp [pushGroup, h]
    · simp only [pushGroup, if_neg h, List.map_cons, List.mem_cons]
      rw [ih]
      by_cases hmem : k ∈ acc.map Prod.fst
      · simp [hmem, h, Ne.symm h]
      · simp [hmem, h, Ne.symm h]

theorem groupPush_keys_nodup {α κ : Type} [DecidableEq κ] (key : α → κ)
    (l : List α) : ((groupPush l key).map Prod.fst).Nodup := by
  suffices h : ∀ acc : List (κ × List α), (acc.map Prod.fst).Nodup →
      ((l.foldl (fun acc a => pushGroup acc (key a) a) acc).map
        Prod.fst).Nodup by
    exact h [] (by simp)
  induction l with
  | nil => intro acc hacc; simpa using hacc
  | cons a l ih =>
    intro acc hacc
    rw [List.foldl_cons]
    refine ih (pushGroup acc (key a) a) ?_
    rw [pushGroup_keys]
    by_cases hmem : key a ∈ acc.map Prod.fst
    · simpa [hmem] using hacc
    · simp [hmem, List.nodup_append, hacc]

/-- Members of a `groupPush` result are exactly the per-key filters. -/
theorem groupPush_mem {α κ : Type} [DecidableEq κ] (key : α → κ)
    (l : List α) {k : κ} {xs : List α} (h : (k, xs) ∈ groupPush l key) :
    xs = l.filter (fun a => key a = k) ∧ xs ≠ [] := by
  have hget := mapGet_of_mem_nodupKeys (groupPush_keys_nodup key l) h
  rw [groupPush_get] at hget
  by_cases hf : (l.filter (fun a => key a = k)).isEmpty
  · rw [if_pos hf] at hget; cases hget
  · rw [if_neg hf] at hget
    have hxs : xs = l.filter (fun a => key a = k) :=
      (Option.some_injective _ hget).symm
    refine ⟨hxs, ?_⟩
    intro heq
    rw [Bool.not_eq_true] at hf
    rw [hxs] at heq
    rw [heq] at hf
    simp at hf

theorem groupPush_const_aux {α κ : Type} [DecidableEq κ] (key : α → κ)
    (d : κ) (l : List α) (hkey : ∀ a ∈ l, key a = d) :
    ∀ xs, l.foldl (fun acc a => pushGroup acc (key a) a) [(d, xs)] =
      [(d, xs ++ l)] := by
  induction l with
  | nil => intro xs; simp
  | cons a l ih =>
    intro xs
    have ha : key a = d := hkey a (List.mem_cons_self a l)
    rw [List.foldl_cons]
    have hstep : pushGroup [(d, xs)] (key a) a = [(d, xs ++ [a])] := by
      simp [pushGroup, ha]
    rw [hstep, ih (fun b hb => hkey b (List.mem_cons_of_mem a hb))]
    simp

/-- Grouping a non-empty list whose elements all share the key `d` yields
the single group `(d, l)`. -/
theorem groupPush_const {α κ : Type} [DecidableEq κ] (key : α → κ)
    (d : κ) (l : List α) (hne : l ≠ []) (hkey : ∀ a ∈ l, key a = d) :
    groupPush l key = [(d, l)] := by
  cases l with
  | nil => exact absurd rfl hne
  | cons a l =>
    have ha : key a = d := hkey a (List.mem_cons_self a l)
    rw [groupPush, List.foldl_cons]
    have hstep : pushGroup ([] : List (κ × List α)) (key a) a =
        [(d, [a])] := by simp [pushGroup, ha]
    rw [hstep, groupPush_const_aux key d l
      (fun b hb => hkey b (List.mem_cons_of_mem a hb))]
    simp

/-! ### Claim C1: day-group timestamp construction -/

set_option maxRecDepth 4000

theorem zoneRoundTripAux : ∀ n : Nat, n < 100 →
    parseSpecifier (zoneSpecifier (60 * (n : Int))) =
      some (60 * (n : Int)) ∧
    parseSpecifier (zoneSpecifier (-(60 * (n : Int)))) =
      some (-(60 * (n : Int))) := by decide

theorem entryCreatedAt_wholeHour (e : DaylioEntry) (h : Int)
    (hh : roundDiv60000 e.timeZoneOffset = 60 * h) (hle : h.natAbs ≤ 99) :
    entryCreatedAt e = LDateTime.valid e.datetime (60 * h) := by
  have hlt : h.natAbs < 100 := Nat.lt_succ_of_le hle
  unfold entryCreatedAt luxonFromMillisZoned
  rw [hh]
  rcases Int.natAbs_eq h with he | he
  · rw [he, (zoneRoundTripAux h.natAbs hlt).1]
  · rw [he, show (60 : Int) * -(h.natAbs : Int) =
      -(60 * (h.natAbs : Int)) by ring, (zoneRoundTripAux h.natAbs hlt).2]

/-- C1: every record the importer returns comes from a day group whose
entries were sorted by time; `memoryCreatedAt` is built from the earliest
post-sort entry's `datetime` and the zone specifier derived from
`Math.round(timeZoneOffset / 60000)`; whenever that rounded offset is a
whole number of hours `h` (with at most two digits), the resulting instant
is exactly `datetime` in a fixed zone of `60 * h` minutes, i.e. `h =
round(timeZoneOffset / 60000) / 60` hours.  (For offsets that are not whole
hours the zone string is unparsable and the result is the invalid
`DateTime` — see the counterexample.) -/
theorem daylio_memoryCreatedAt_spec (backup : DaylioBackup) :
    ∀ mem ∈ importDaylioBackup backup,
      ∃ g ∈ groupPush backup.dayEntries entryDayKey,
        ∃ firstEntry rest,
          sortEntriesByTime g.2 = firstEntry :: rest ∧
          (∀ e ∈ g.2, entryTimeKey firstEntry ≤ entryTimeKey e) ∧
          mem.memoryCreatedAt = luxonFromMillisZoned firstEntry.datetime
            (zoneSpecifier (roundDiv60000 firstEntry.timeZoneOffset)) ∧
          (∀ h : Int, roundDiv60000 firstEntry.timeZoneOffset = 60 * h →
            h.natAbs ≤ 99 →
            mem.memoryCreatedAt =
              LDateTime.valid firstEntry.datetime (60 * h)) := by
  intro mem hmem
  simp only [importDaylioBackup] at hmem
  have hmem' : mem ∈ (groupPush backup.dayEntries entryDayKey).filterMap
      (fun g => mkDayMemory (mkMoodLookup backup.customMoods)
        (mkTagLookup backup.tags) g.1 g.2) :=
    (sortByKey_perm _ _ _).mem_iff.mp hmem
  obtain ⟨g, hg, hsome⟩ := List.mem_filterMap.mp hmem'
  refine ⟨g, hg, ?_⟩
  unfold mkDayMemory at hsome
  cases hsort : sortEntriesByTime g.2 with
  | nil => rw [hsort] at hsome; exact absurd hsome (by simp)
  | cons firstEntry rest =>
    rw [hsort] at hsome
    have hmemEq := Option.some_injective _ hsome
    subst hmemEq
    refine ⟨firstEntry, rest, rfl, ?_, rfl, ?_⟩
    · intro e he
      have he' : e ∈ sortEntriesByTime g.2 :=
        (sortByKey_perm _ _ _).mem_iff.mpr he
      rw [hsort] at he'
      have hpw := sortByKey_pairwise Nat.ble entryTimeKey natBle_total
        natBle_trans g.2
      rw [show sortByKey Nat.ble entryTimeKey g.2 = sortEntriesByTime g.2
        from rfl, hsort] at hpw
      rcases List.mem_cons.mp he' with rfl | he''
      · exact Nat.le_refl _
      · have := List.rel_of_pairwise_cons hpw he''
        simpa [Nat.ble_eq] using this
    · intro h hh hle
      exact entryCreatedAt_wholeHour firstEntry h hh hle

def c1Entry : DaylioEntry :=
  ⟨1, 12, 8, 2025, 8, 0, 1757660400000, 5400000, 1, "x", []⟩

def c1Backup : DaylioBackup := ⟨[⟨1, "", 2⟩], [], [c1Entry]⟩

/-- C1 counterexample: for `timeZoneOffset = 5400000` ms (+1:30), the
rounded offset is 90 minutes — not a whole number of hours — and the zone
string the importer builds is `"UTC+1.5"`, which the fixed-offset zone
parser rejects; the record's `memoryCreatedAt` is the invalid `DateTime`,
not an instant equal to `datetime` in a 1.5-hour zone as the claim states
for non-whole-hour offsets. -/
theorem daylio_fractionalOffset_invalid :
    roundDiv60000 (5400000 : Int) = 90 ∧
    (90 : Int) % 60 ≠ 0 ∧
    zoneSpecifier 90 = "UTC+1.5" ∧
    parseSpecifier "UTC+1.5" = none ∧
    (importDaylioBackup c1Backup).map (fun m => m.memoryCreatedAt) =
      [LDateTime.invalid] ∧
    LDateTime.invalid ≠ LDateTime.valid 1757660400000 90 := by decide

def c1wEntry : DaylioEntry :=
  ⟨1, 11, 8, 2025, 14, 30, 1757601000000, 7200000, 1, "ok", []⟩

def c1wBackup : DaylioBackup := ⟨[], [], [c1wEntry]⟩

def c1wMem : NewMemory :=
  { source := "daylio"
    memoryCreatedAt := LDateTime.valid 1757601000000 120
    title := "Daylio: 2025-09-11"
    metadata := [("entryCount", "1"), ("dayKey", "2025-09-11")]
    content := "Unknown: ok" }

theorem daylio_memoryCreatedAt_spec_witness :
    ∃ g ∈ groupPush c1wBackup.dayEntries entryDayKey,
      ∃ firstEntry rest,
        sortEntriesByTime g.2 = firstEntry :: rest ∧
        (∀ e ∈ g.2, entryTimeKey firstEntry ≤ entryTimeKey e) ∧
        c1wMem.memoryCreatedAt = luxonFromMillisZoned firstEntry.datetime
          (zoneSpecifier (roundDiv60000 firstEntry.timeZoneOffset)) ∧
        (∀ h : Int, roundDiv60000 firstEntry.timeZoneOffset = 60 * h →
          h.natAbs ≤ 99 →
          c1wMem.memoryCreatedAt =
            LDateTime.valid firstEntry.datetime (60 * h)) :=
  daylio_memoryCreatedAt_spec c1wBackup c1wMem (by decide)

/-! ### Claim C2: mood-name resolution -/

/-- C2 (amended): resolution of a mood reference: unknown id resolves to
`"Unknown"`; a custom name that is non-empty and non-blank (JS truthiness of
`custom_name` and of `custom_name.trim()`) wins regardless of the
predefined reference; otherwise the predefined reference is mapped through
the fixed five-name table, `"Unknown"` for references outside it.  The
resolution is a total function — it never raises. -/
theorem getMoodName_resolution (moodId : Int)
    (moodLookup : List (Int × DaylioMood)) :
    (mapGet moodLookup moodId = none →
      getMoodName moodId moodLookup = "Unknown") ∧
    (∀ mood, mapGet moodLookup moodId = some mood →
      ((mood.custom_name ≠ "" ∧ jsTrim mood.custom_name ≠ "") →
        getMoodName moodId moodLookup = mood.custom_name) ∧
      ((mood.custom_name = "" ∨ jsTrim mood.custom_name = "") →
        getMoodName moodId moodLookup =
          (PREDEFINED_MOOD_NAMES mood.predefined_name_id).getD "Unknown")) ∧
    PREDEFINED_MOOD_NAMES 1 = some "Rad" ∧
    PREDEFINED_MOOD_NAMES 2 = some "Good" ∧
    PREDEFINED_MOOD_NAMES 3 = some "Meh" ∧
    PREDEFINED_MOOD_NAMES 4 = some "Bad" ∧
    PREDEFINED_MOOD_NAMES 5 = some "Awful" ∧
    (∀ i : Int, i < 1 ∨ 5 < i →
      (PREDEFINED_MOOD_NAMES i).getD "Unknown" = "Unknown") := by
  refine ⟨?_, ?_, rfl, rfl, rfl, rfl, rfl, ?_⟩
  · intro h
    unfold getMoodName
    rw [h]
  · intro mood hmood
    constructor
    · intro hcustom
      unfold getMoodName
      rw [hmood]
      simp only [if_pos hcustom]
    · intro hor
      have hneg : ¬ (mood.custom_name ≠ "" ∧ jsTrim mood.custom_name ≠ "") := by
        rcases hor with h | h
        · exact fun hc => hc.1 h
        · exact fun hc => hc.2 h
      unfold getMoodName
      rw [hmood]
      simp only [if_neg hneg]
  · intro i hi
    unfold PREDEFINED_MOOD_NAMES
    split <;> first | omega | rfl

def c2Mood : DaylioMood := ⟨1, " ", 3⟩

def c2Lookup : List (Int × DaylioMood) := mkMoodLookup [c2Mood]

/-- C2 counterexample: a whitespace-only custom name is a non-empty string,
yet resolution does not return it — `custom_name.trim()` is falsy, so the
predefined name `"Meh"` is returned instead.  The claim's "non-empty custom
name wins" is therefore false as stated. -/
theorem getMoodName_blankCustom :
    c2Mood.custom_name ≠ "" ∧
    mapGet c2Lookup 1 = some c2Mood ∧
    getMoodName 1 c2Lookup = "Meh" ∧
    getMoodName 1 c2Lookup ≠ c2Mood.custom_name := by decide

def c2wMood : DaylioMood := ⟨7, "", 3⟩

def c2wLookup : List (Int × DaylioMood) := mkMoodLookup [c2wMood]

theorem getMoodName_resolution_witness :
    getMoodName 7 c2wLookup = "Meh" := by
  have h := ((getMoodName_resolution 7 c2wLookup).2.1 c2wMood
    (by decide)).2 (Or.inl (by decide))
  exact h.trans (by decide)

/-! ### Claim C3: the day grouping key -/

theorem pad2_length : ∀ n : Nat, n < 100 → (pad2 n).length = 2 := by decide

theorem yearReprAux : ∀ a : Nat, a < 90 → ∀ b : Nat, b < 100 →
    (toString (1000 + a * 100 + b)).length = 4 := by decide

theorem yearRepr4 (y : Nat) (h1 : 1000 ≤ y) (h2 : y ≤ 9999) :
    (toString y).length = 4 := by
  have hy : y = 1000 + ((y - 1000) / 100) * 100 + (y - 1000) % 100 := by
    omega
  rw [hy]
  exact yearReprAux _ (by omega) _ (by omega)

theorem pad4_of_len4 (y : Nat) (h : (toString y).length = 4) :
    pad4 y = toString y := by
  unfold pad4
  simp [h]

/-- C3: the grouping key is `<year>-<month+1 padded to 2>-<day padded to 2>`
— for four-digit years a fixed-width 10-character `YYYY-MM-DD` string — the
0-indexed source month being shifted by one; the pinned example year 2025 /
month 8 / day 11 yields `"2025-09-11"`; and every returned record carries
its group's key both as `metadata.dayKey` and inside the title. -/
theorem entryDayKey_spec :
    (∀ e : DaylioEntry, 1000 ≤ e.year → e.year ≤ 9999 → e.month ≤ 11 →
      e.day ≤ 99 →
      entryDayKey e =
        pad4 e.year ++ "-" ++ pad2 (e.month + 1) ++ "-" ++ pad2 e.day ∧
      (entryDayKey e).length = 10) ∧
    (∀ e : DaylioEntry, e.year = 2025 → e.month = 8 → e.day = 11 →
      entryDayKey e = "2025-09-11") ∧
    (∀ backup : DaylioBackup, ∀ mem ∈ importDaylioBackup backup,
      ∃ g ∈ groupPush backup.dayEntries entryDayKey,
        (∀ e ∈ g.2, entryDayKey e = g.1) ∧
        mem.metadata =
          [("entryCount", toString g.2.length), ("dayKey", g.1)] ∧
        mem.title = "Daylio: " ++ g.1) := by
  refine ⟨?_, ?_, ?_⟩
  · intro e h1 h2 h3 h4
    have hy := yearRepr4 e.year h1 h2
    constructor
    · unfold entryDayKey
      rw [pad4_of_len4 e.year hy]
    · unfold entryDayKey
      have hm := pad2_length (e.month + 1) (by omega)
      have hd := pad2_length e.day (by omega)
      simp only [String.length_append, hy, hm, hd]
      decide
  · intro e h1 h2 h3
    unfold entryDayKey
    rw [h1, h2, h3]
    decide
  · intro backup mem hmem
    simp only [importDaylioBackup] at hmem
    have hmem' : mem ∈ (groupPush backup.dayEntries entryDayKey).filterMap
        (fun g => mkDayMemory (mkMoodLookup backup.customMoods)
          (mkTagLookup backup.tags) g.1 g.2) :=
      (sortByKey_perm _ _ _).mem_iff.mp hmem
    obtain ⟨g, hg, hsome⟩ := List.mem_filterMap.mp hmem'
    refine ⟨g, hg, ?_, ?_⟩
    · intro e he
      have hfilter := (groupPush_mem entryDayKey backup.dayEntries
        (show (g.1, g.2) ∈ groupPush backup.dayEntries entryDayKey
          from hg)).1
      rw [hfilter] at he
      exact of_decide_eq_true ((List.mem_filter.mp he).2)
    · unfold mkDayMemory at hsome
      cases hsort : sortEntriesByTime g.2 with
      | nil => rw [hsort] at hsome; exact absurd hsome (by simp)
      | cons firstEntry rest =>
        rw [hsort] at hsome
        have hmemEq := Option.some_injective _ hsome
        subst hmemEq
        exact ⟨rfl, rfl⟩

def c3wEntry : DaylioEntry :=
  ⟨1, 11, 8, 2025, 0, 0, 0, 0, 0, "", []⟩

theorem entryDayKey_spec_witness : entryDayKey c3wEntry = "2025-09-11" :=
  entryDayKey_spec.2.1 c3wEntry rfl rfl rfl

/-! ### Claim C4: final ordering by instant -/

/-- C4: the importer's result is sorted ascending by the
`memoryCreatedAt.toMillis()` value (given that all constructed instants are
valid, which is when `toMillis` is a number), irrespective of the lexical
order of the day keys — the final sort compares only the instants. -/
theorem importDaylioBackup_sorted (backup : DaylioBackup)
    (_hvalid : ∀ mem ∈ importDaylioBackup backup,
      mem.memoryCreatedAt.isValid = true) :
    (importDaylioBackup backup).Pairwise (fun a b =>
      a.memoryCreatedAt.millisKey ≤ b.memoryCreatedAt.millisKey) := by
  have h := sortByKey_pairwise (fun a b : Int => decide (a ≤ b))
    (fun m : NewMemory => m.memoryCreatedAt.millisKey) intLeB_total
    intLeB_trans
    ((groupPush backup.dayEntries entryDayKey).filterMap
      (fun g => mkDayMemory (mkMoodLookup backup.customMoods)
        (mkTagLookup backup.tags) g.1 g.2))
  simp only [importDaylioBackup]
  exact h.imp (fun hab => of_decide_eq_true hab)

def c4wBackup : DaylioBackup :=
  ⟨[], [],
    [⟨1, 2, 8, 2025, 0, 30, 1756722600000, 50400000, 1, "", []⟩,
     ⟨2, 1, 8, 2025, 23, 30, 1756805400000, -36000000, 1, "", []⟩]⟩

theorem importDaylioBackup_sorted_witness :
    (∀ mem ∈ importDaylioBackup c4wBackup,
      mem.memoryCreatedAt.isValid = true) ∧
    (importDaylioBackup c4wBackup).Pairwise (fun a b =>
      a.memoryCreatedAt.millisKey ≤ b.memoryCreatedAt.millisKey) ∧
    (importDaylioBackup c4wBackup).map
        (fun m => (m.title, m.memoryCreatedAt.millisKey)) =
      [("Daylio: 2025-09-02", 1756722600000),
       ("Daylio: 2025-09-01", 1756805400000)] :=
  ⟨by decide, importDaylioBackup_sorted c4wBackup (by decide), by decide⟩

/-! ### Claim C5: intra-day ordering -/

def c5Backup : DaylioBackup :=
  ⟨[⟨1, "", 3⟩], [],
    [⟨1, 11, 8, 2025, 14, 0, 1757595600000, 0, 1, "fourteen", []⟩,
     ⟨2, 11, 8, 2025, 9, 30, 1757583000000, 0, 1, "nine-a", []⟩,
     ⟨3, 11, 8, 2025, 9, 30, 1757583000000, 0, 1, "nine-b", []⟩]⟩

/-- C5: within a day group the entries are sorted ascending by
`hour * 60 + minute`; the sort is stable, i.e. entries with equal keys keep
their original relative order (their per-key filter is unchanged); and in
the pinned example a 9:30 entry's line precedes a 14:00 entry's line (with
a 9:30 tie kept in insertion order). -/
theorem daylio_intraday_order :
    (∀ entries : List DaylioEntry,
      (sortEntriesByTime entries).Pairwise
        (fun a b => entryTimeKey a ≤ entryTimeKey b) ∧
      (sortEntriesByTime entries).Perm entries ∧
      (∀ k : Nat, (sortEntriesByTime entries).filter
          (fun e => entryTimeKey e = k) =
        entries.filter (fun e => entryTimeKey e = k))) ∧
    (importDaylioBackup c5Backup).map (fun m => m.content) =
      ["Meh: nine-a\nMeh: nine-b\nMeh: fourteen"] := by
  constructor
  · intro entries
    refine ⟨?_, sortByKey_perm _ _ _, ?_⟩
    · exact (sortByKey_pairwise Nat.ble entryTimeKey natBle_total
        natBle_trans entries).imp (fun h => by simpa [Nat.ble_eq] using h)
    · intro k
      exact sortByKey_filter Nat.ble entryTimeKey natBle_refl entries k
  · decide

/-! ### Claim C6: filename-derived timestamps in the notes importer -/

/-- C6 (code bug): the preference order holds — a leading ISO date-time
wins over everything, a bare leading date is midnight local, and otherwise
the file's mtime is used, and the pinned `2025-09-11T14:30:00.md` example
yields exactly that instant regardless of mtime — but an explicit
offset/zone in the filename is NOT preserved: `DateTime.fromISO` is called
without `setZone: true`, so the instant is converted to the system zone.
With system offset +02:00, `20250911T143000Z.md` produces the right instant
carrying offset +120 instead of the explicit UTC zone, contradicting the
claim and the code's own comment ("fromISO will use the timezone in the
string if present"). -/
theorem obsidian_timestamp_behaviour :
    obsidianMemoryCreatedAt 120 "20250911T143000Z.md" 999999999 =
      LDateTime.valid 1757601000000 120 ∧
    LDateTime.valid 1757601000000 120 ≠ LDateTime.valid 1757601000000 0 ∧
    obsidianMemoryCreatedAt 120 "2025-09-11T14:30:00.md" 999999999 =
      LDateTime.valid 1757593800000 120 ∧
    obsidianMemoryCreatedAt 120 "2025-09-11 Meeting Notes.md" 999999999 =
      LDateTime.valid 1757541600000 120 ∧
    obsidianMemoryCreatedAt 120 "notes about stuff.md" 1700000000123 =
      LDateTime.valid 1700000000123 120 := by decide

/-! ### Claim C7: entry line formatting -/

/-- C7 (amended): an entry line is `<MoodName>: <note>` plus, when at least
one tag reference resolves, a parenthesised comma-separated list of exactly
the resolving tag names in original reference order; an unresolvable tag
reference is silently dropped (removing it from the reference list does not
change the line) and never yields a placeholder or an error; and the whole
line is passed through `trim()`, which removes leading as well as trailing
whitespace (the claim's "only trailing" is corrected by the
counterexample). -/
theorem formatEntry_spec (entry : DaylioEntry)
    (moodLookup : List (Int × DaylioMood))
    (tagLookup : List (Int × String)) :
    (formatEntry entry moodLookup tagLookup =
      jsTrim (getMoodName entry.mood moodLookup ++ ": " ++ entry.note ++
        (if (entry.tags.filterMap
            (fun tagId => mapGet tagLookup tagId)).length > 0 then
          " (" ++ String.intercalate ", " (entry.tags.filterMap
            (fun tagId => mapGet tagLookup tagId)) ++ ")"
         else ""))) ∧
    (∀ xs ys badId, mapGet tagLookup badId = none →
      formatEntry { entry with tags := xs ++ badId :: ys } moodLookup
          tagLookup =
        formatEntry { entry with tags := xs ++ ys } moodLookup tagLookup) := by
  constructor
  · unfold formatEntry
    by_cases h : (entry.tags.filterMap
        (fun tagId => mapGet tagLookup tagId)).length > 0
    · simp only [if_pos h]
      simp [String.append_assoc]
    · simp only [if_neg h]
      simp
  · intro xs ys badId hbad
    unfold formatEntry
    simp [List.filterMap_append, List.filterMap_cons, hbad]

def c7Mood : DaylioMood := ⟨1, " Rad", 5⟩

def c7Lookup : List (Int × DaylioMood) := mkMoodLookup [c7Mood]

def c7Entry : DaylioEntry := ⟨1, 1, 0, 2025, 0, 0, 0, 0, 1, "hi", []⟩

/-- C7 counterexample: `line.trim()` removes leading whitespace too.  A
custom mood name with a leading space survives mood resolution, so the
claim's output `<MoodName>: <note>` would begin with that space; the code
returns the line with the leading space removed. -/
theorem formatEntry_leadingTrim :
    getMoodName 1 c7Lookup = " Rad" ∧
    formatEntry c7Entry c7Lookup [] = "Rad: hi" ∧
    "Rad: hi" ≠ " Rad" ++ ": " ++ "hi" := by decide

def c7wEntry : DaylioEntry := ⟨1, 1, 0, 2025, 0, 0, 0, 0, 1, "hi", []⟩

def c7wMoods : List (Int × DaylioMood) := mkMoodLookup [⟨1, "", 3⟩]

def c7wTags : List (Int × String) := mkTagLookup [⟨1, "work"⟩, ⟨2, "run"⟩]

theorem formatEntry_spec_witness :
    formatEntry { c7wEntry with tags := [1] ++ 99 :: [2] } c7wMoods
        c7wTags =
      formatEntry { c7wEntry with tags := [1] ++ [2] } c7wMoods c7wTags ∧
    formatEntry { c7wEntry with tags := [1] ++ [2] } c7wMoods c7wTags =
      "Meh: hi (work, run)" :=
  ⟨(formatEntry_spec c7wEntry c7wMoods c7wTags).2 [1] [2] 99 (by decide),
   by decide⟩

/-! ### Claim C8: day blocks in the export -/

theorem intercalate_pair (s a b : String) :
    String.intercalate s [a, b] = a ++ s ++ b := rfl

theorem intercalate_triple (s a b c : String) :
    String.intercalate s [a, b, c] = a ++ s ++ b ++ s ++ c := rfl

/-- C8: when every record of a non-empty input falls on the same day `d`,
exporting with the "month" selector writes exactly one file; its content is
the day key wrapped in `<date>` markers followed by the serialized records
— each a `## <title>` heading line, a 24-hour `Time: HH:mm` line from
`memoryCreatedAt` in its carried zone, and the content when present —
consecutive records separated by `---` surrounded by blank lines. -/
theorem export_day_block (ms : List Memory) (d : String) (hne : ms ≠ [])
    (hday : ∀ m ∈ ms, getDayKey m.memoryCreatedAt = d) :
    exportToNotebookLM ms ExportInterval.month =
      [(getFileKey d ExportInterval.month ++ ".txt",
        "<date>" ++ d ++ "</date>\n" ++
          String.intercalate "\n\n---\n\n" (ms.map serializeMemory) ++
          "\n")] ∧
    (∀ m : Memory, serializeMemory m =
      "## " ++ m.title ++ "\nTime: " ++ timeHHMM m.memoryCreatedAt ++
        (match m.content with
         | some c => if c ≠ "" then "\n" ++ c else ""
         | none => "")) := by
  constructor
  · have hempty : ms.isEmpty = false := by
      cases ms with
      | nil => exact absurd rfl hne
      | cons a l => rfl
    unfold exportToNotebookLM
    rw [if_neg (by simp [hempty])]
    rw [groupPush_const (fun m => getDayKey m.memoryCreatedAt) d ms hne
      hday]
    show ([((d, ms))].foldl _ []).map _ = _
    simp only [List.foldl_cons, List.foldl_nil, pushGroup]
    simp only [List.map_cons, List.map_nil, sortByKey, insertByKey,
      formatDay]
    rfl
  · intro m
    simp only [serializeMemory]
    cases hc : m.content with
    | none =>
      rw [intercalate_pair]
      apply String.ext
      simp [String.data_append]
    | some c =>
      show "\n".intercalate (if c ≠ "" then
          ["## " ++ m.title, "Time: " ++ timeHHMM m.memoryCreatedAt] ++ [c]
        else ["## " ++ m.title, "Time: " ++ timeHHMM m.memoryCreatedAt]) =
        "## " ++ m.title ++ "\nTime: " ++ timeHHMM m.memoryCreatedAt ++
          (if c ≠ "" then "\n" ++ c else "")
      by_cases hcne : c ≠ ""
      · rw [if_pos hcne, if_pos hcne]
        rw [show (["## " ++ m.title,
            "Time: " ++ timeHHMM m.memoryCreatedAt] ++ [c]) =
          ["## " ++ m.title, "Time: " ++ timeHHMM m.memoryCreatedAt, c]
          from rfl]
        rw [intercalate_triple]
        apply String.ext
        simp [String.data_append]
      · rw [if_neg hcne, if_neg hcne]
        rw [intercalate_pair]
        apply String.ext
        simp [String.data_append]

def c8w1 : Memory :=
  ⟨"1", "daylio", "c", LDateTime.valid 1757584800000 60,
    "Daylio: 2025-09-11", [], some "Meh: x"⟩

def c8w2 : Memory :=
  ⟨"2", "obsidian", "c", LDateTime.valid 1757601000000 120, "note", [],
    none⟩

theorem export_day_block_witness :
    exportToNotebookLM [c8w1, c8w2] ExportInterval.month =
      [(getFileKey "2025-09-11" ExportInterval.month ++ ".txt",
        "<date>" ++ "2025-09-11" ++ "</date>\n" ++
          String.intercalate "\n\n---\n\n"
            ([c8w1, c8w2].map serializeMemory) ++ "\n")] ∧
    (∀ m : Memory, serializeMemory m =
      "## " ++ m.title ++ "\nTime: " ++ timeHHMM m.memoryCreatedAt ++
        (match m.content with
         | some c => if c ≠ "" then "\n" ++ c else ""
         | none => "")) :=
  export_day_block [c8w1, c8w2] "2025-09-11" (by decide) (by decide)

/-! ### Claim C9: file keys, day order inside a file, one file per key -/

theorem appendTxt_injective :
    Function.Injective (fun s : String => s ++ ".txt") := by
  intro a b h
  apply String.ext
  have h' := congrArg String.data h
  simp only [String.data_append] at h'
  exact List.append_cancel_right h'

/-- C9: the export writes one `<fileKey>.txt` file per distinct file key
(the file-name list is duplicate-free); each file's content is the day
blocks of its day groups sorted ascending by the lexicographic order of the
day-key strings; and the file key of a `yyyy-MM-dd` day key is the
four-digit year for the "year" selector and the full English month name
concatenated directly with the four-digit year for the "month" selector. -/
theorem export_files_spec (ms : List Memory) (interval : ExportInterval) :
    ((exportToNotebookLM ms interval).map Prod.fst).Nodup ∧
    (∀ fc ∈ exportToNotebookLM ms interval,
      ∃ g ∈ groupPush (groupPush ms (fun m => getDayKey m.memoryCreatedAt))
          (fun p => getFileKey p.1 interval),
        fc.1 = g.1 ++ ".txt" ∧
        fc.2 = String.intercalate "\n"
          ((sortByKey lexLe dayKeyCodes g.2).map
            (fun p => formatDay p.1 p.2)) ∧
        (sortByKey lexLe dayKeyCodes g.2).Pairwise
          (fun p q => lexLe (dayKeyCodes p) (dayKeyCodes q) = true) ∧
        (∀ p ∈ g.2, getFileKey p.1 interval = g.1)) ∧
    (∀ s : String, ∀ y mo dy : Nat, parseDayKeyDate s = some (y, mo, dy) →
      getFileKey s ExportInterval.year = pad4 y ∧
      getFileKey s ExportInterval.month = monthName mo ++ pad4 y) ∧
    getFileKey "2025-03-15" ExportInterval.month = "March2025" ∧
    getFileKey "2017-01-01" ExportInterval.year = "2017" := by
  have hparse : ∀ s : String, ∀ y mo dy : Nat,
      parseDayKeyDate s = some (y, mo, dy) →
      getFileKey s ExportInterval.year = pad4 y ∧
      getFileKey s ExportInterval.month = monthName mo ++ pad4 y := by
    intro s y mo dy h
    constructor
    · unfold getFileKey
      rw [h]
    · unfold getFileKey
      rw [h]
  by_cases hms : ms.isEmpty = true
  · have hexp : exportToNotebookLM ms interval = [] := by
      unfold exportToNotebookLM
      rw [if_pos hms]
    refine ⟨?_, ?_, hparse, by decide, by decide⟩
    · rw [hexp]; simp
    · rw [hexp]; intro fc hfc; exact absurd hfc (by simp)
  · have hexp : exportToNotebookLM ms interval =
        (groupPush (groupPush ms (fun m => getDayKey m.memoryCreatedAt))
          (fun g => getFileKey g.1 interval)).map (fun g =>
          (g.1 ++ ".txt", String.intercalate "\n"
            ((sortByKey lexLe dayKeyCodes g.2).map
              (fun p => formatDay p.1 p.2)))) := by
      unfold exportToNotebookLM
      rw [if_neg hms]
    refine ⟨?_, ?_, hparse, by decide, by decide⟩
    · rw [hexp, List.map_map]
      have hcomp : (Prod.fst ∘ fun g : String × List (String × List Memory) =>
          (g.1 ++ ".txt", String.intercalate "\n"
            ((sortByKey lexLe dayKeyCodes g.2).map
              (fun p => formatDay p.1 p.2)))) =
          (fun s => s ++ ".txt") ∘ Prod.fst := rfl
      rw [hcomp, ← List.map_map]
      exact (groupPush_keys_nodup _ _).map appendTxt_injective
    · intro fc hfc
      rw [hexp] at hfc
      obtain ⟨g, hg, rfl⟩ := List.mem_map.mp hfc
      refine ⟨g, hg, rfl, rfl, ?_, ?_⟩
      · exact sortByKey_pairwise lexLe dayKeyCodes lexLe_total lexLe_trans
          g.2
      · intro p hp
        have hfil := (groupPush_mem (fun p => getFileKey p.1 interval)
          (groupPush ms (fun m => getDayKey m.memoryCreatedAt))
          (show (g.1, g.2) ∈ _ from hg)).1
        rw [hfil] at hp
        exact of_decide_eq_true ((List.mem_filter.mp hp).2)

def c9wMem : Memory :=
  ⟨"1", "daylio", "c", LDateTime.valid 1757584800000 60,
    "Daylio: 2025-09-11", [], some "Meh: x"⟩

theorem export_files_spec_witness :
    ∃ g ∈ groupPush
        (groupPush [c9wMem] (fun m => getDayKey m.memoryCreatedAt))
        (fun p => getFileKey p.1 ExportInterval.month),
      (("September2025.txt",
        "<date>2025-09-11</date>\n## Daylio: 2025-09-11\nTime: 11:00\nMeh: x\n")
          : String × String).1 = g.1 ++ ".txt" ∧
      (("September2025.txt",
        "<date>2025-09-11</date>\n## Daylio: 2025-09-11\nTime: 11:00\nMeh: x\n")
          : String × String).2 = String.intercalate "\n"
        ((sortByKey lexLe dayKeyCodes g.2).map
          (fun p => formatDay p.1 p.2)) ∧
      (sortByKey lexLe dayKeyCodes g.2).Pairwise
        (fun p q => lexLe (dayKeyCodes p) (dayKeyCodes q) = true) ∧
      (∀ p ∈ g.2, getFileKey p.1 ExportInterval.month = g.1) :=
  (export_files_spec [c9wMem] ExportInterval.month).2.1
    ("September2025.txt",
      "<date>2025-09-11</date>\n## Daylio: 2025-09-11\nTime: 11:00\nMeh: x\n")
    (by decide)

/-! ### Claim C10: record order inside a day block -/

/-- C10 (implicit): the exporter never reorders records within a day — the
records of the day block for key `d` are exactly the input records whose
day key is `d`, in input order; hence when the input list is ordered
ascending by `memoryCreatedAt` (as the store returns it), the records
inside every date block are ascending by `memoryCreatedAt` as well. -/
theorem export_day_contents (ms : List Memory) (interval : ExportInterval)
    (hsorted : ms.Pairwise (fun a b =>
      a.memoryCreatedAt.millisKey ≤ b.memoryCreatedAt.millisKey)) :
    ∀ fc ∈ exportToNotebookLM ms interval,
      ∃ days : List (String × List Memory),
        fc.2 = String.intercalate "\n"
          ((sortByKey lexLe dayKeyCodes days).map
            (fun p => formatDay p.1 p.2)) ∧
        ∀ p ∈ sortByKey lexLe dayKeyCodes days,
          p.2 = ms.filter (fun m => getDayKey m.memoryCreatedAt = p.1) ∧
          p.2.Pairwise (fun a b =>
            a.memoryCreatedAt.millisKey ≤ b.memoryCreatedAt.millisKey) := by
  intro fc hfc
  by_cases hms : ms.isEmpty = true
  · rw [show exportToNotebookLM ms interval = [] from by
      unfold exportToNotebookLM; rw [if_pos hms]] at hfc
    exact absurd hfc (by simp)
  · rw [show exportToNotebookLM ms interval =
        (groupPush (groupPush ms (fun m => getDayKey m.memoryCreatedAt))
          (fun g => getFileKey g.1 interval)).map (fun g =>
          (g.1 ++ ".txt", String.intercalate "\n"
            ((sortByKey lexLe dayKeyCodes g.2).map
              (fun p => formatDay p.1 p.2)))) from by
      unfold exportToNotebookLM; rw [if_neg hms]] at hfc
    obtain ⟨g, hg, rfl⟩ := List.mem_map.mp hfc
    refine ⟨g.2, rfl, ?_⟩
    intro p hp
    have hp' : p ∈ g.2 := (sortByKey_perm _ _ _).mem_iff.mp hp
    have hfil := (groupPush_mem (fun p => getFileKey p.1 interval)
      (groupPush ms (fun m => getDayKey m.memoryCreatedAt))
      (show (g.1, g.2) ∈ _ from hg)).1
    rw [hfil] at hp'
    have hpDay : p ∈ groupPush ms (fun m => getDayKey m.memoryCreatedAt) :=
      (List.mem_filter.mp hp').1
    have hpd := groupPush_mem (fun m => getDayKey m.memoryCreatedAt) ms
      (show (p.1, p.2) ∈ _ from hpDay)
    refine ⟨hpd.1, ?_⟩
    rw [hpd.1]
    exact hsorted.filter _

def c10w1 : Memory :=
  ⟨"1", "daylio", "c", LDateTime.valid 1757584800000 60,
    "Daylio: 2025-09-11", [], some "Meh: x"⟩

def c10w2 : Memory :=
  ⟨"2", "obsidian", "c", LDateTime.valid 1757601000000 120, "note", [],
    none⟩

theorem export_day_contents_witness :
    ∃ days : List (String × List Memory),
      (("September2025.txt",
        "<date>2025-09-11</date>\n## Daylio: 2025-09-11\nTime: 11:00\nMeh: x\n\n---\n\n## note\nTime: 16:30\n")
          : String × String).2 = String.intercalate "\n"
        ((sortByKey lexLe dayKeyCodes days).map
          (fun p => formatDay p.1 p.2)) ∧
      ∀ p ∈ sortByKey lexLe dayKeyCodes days,
        p.2 = [c10w1, c10w2].filter
          (fun m => getDayKey m.memoryCreatedAt = p.1) ∧
        p.2.Pairwise (fun a b =>
          a.memoryCreatedAt.millisKey ≤ b.memoryCreatedAt.millisKey) :=
  export_day_contents [c10w1, c10w2] ExportInterval.month (by decide)
    ("September2025.txt",
      "<date>2025-09-11</date>\n## Daylio: 2025-09-11\nTime: 11:00\nMeh: x\n\n---\n\n## note\nTime: 16:30\n")
    (by decide)

end Istoria
